import Mathlib

/-
Verification of the TDT search engine core against its specification.

The Python sources are embedded shallowly:

* `src/search/query_parser.py` : `is_exact_match`, `QueryParser.parse`
* `src/search/scorer.py`       : `TfIdfScorer` (BM25 + phrase boost)
* `src/search/retriever.py`    : `Retriever.search` (rank stage)
* `src/index/storage.py`       : `IndexStorage` (buffered writes, reads,
                                 load)
* `src/preprocess/tokenizer.py`: `Tokenizer.tokenize` (non-NLTK path)

Python `list`s become `List`, `dict`s become insertion-ordered association
lists (`List (key × value)`), machine floats become `ℚ` where the code only
adds/multiplies/divides and `ℝ` where `math.log` is involved, and Python
exceptions become `Option`/explicit outcome types.  Wall-clock driven
decisions (the buffer flush timer) are abstracted into an explicit boolean
oracle argument.
-/

set_option maxHeartbeats 1000000

/- ------------------------------------------------------------------ -/
/- Python list indexing: a negative index counts from the end.        -/
/- ------------------------------------------------------------------ -/

/-- Python-style indexing into a list of integers: `s[k]` with negative `k`
counting from the right.  Out-of-range access (never exercised on the
in-range indices produced by `is_exact_match`) defaults to 0. -/
def pyIdx (s : List Int) (k : Int) : Int :=
  if k < 0 then s.getD (((s.length : Int) + k).toNat) 0
  else s.getD k.toNat 0

/- ------------------------------------------------------------------ -/
/- src/search/query_parser.py, lines 53-66                            -/
/-                                                                    -/
/-   def is_exact_match(doc_positions, phrase_length):                -/
/-       if len(doc_positions) < phrase_length: return False          -/
/-       doc_positions.sort()                                         -/
/-       for i in range(len(doc_positions) - phrase_length + 1):      -/
/-           if doc_positions[i + phrase_length - 1]                  -/
/-                 - doc_positions[i] == phrase_length - 1:           -/
/-               return True                                          -/
/-       return False                                                 -/
/- ------------------------------------------------------------------ -/

/-- Embedding of `is_exact_match` from `src/search/query_parser.py`.
Python's in-place `sort()` is modelled by `List.insertionSort (· ≤ ·)`
applied at each use site (on integers every sorting algorithm returns the
same list, so which algorithm is irrelevant to the value semantics). -/
def is_exact_match (doc_positions : List Int) (phrase_length : Nat) : Bool :=
  if doc_positions.length < phrase_length then false
  else
    (List.range (doc_positions.length - phrase_length + 1)).any fun i =>
      pyIdx (List.insertionSort (· ≤ ·) doc_positions)
          ((i : Int) + (phrase_length : Int) - 1)
        - pyIdx (List.insertionSort (· ≤ ·) doc_positions) (i : Int)
        == (phrase_length : Int) - 1

/- Helper lemmas about sorted integer lists. -/

theorem pyIdx_coe_eq_get (s : List Int) (i : Nat) (h : i < s.length) :
    pyIdx s (i : Int) = s.get ⟨i, h⟩ := by
  unfold pyIdx
  rw [if_neg (by omega : ¬ ((i : Int) < 0))]
  rw [show ((i : Int).toNat) = i by omega]
  rw [List.getD_eq_getElem s 0 h, List.get_eq_getElem]

theorem sorted_lt_get_add {s : List Int} (h : List.Sorted (· < ·) s)
    (i k : Nat) (hi : i < s.length) (hik : i + k < s.length) :
    s.get ⟨i, hi⟩ + (k : Int) ≤ s.get ⟨i + k, hik⟩ := by
  induction k with
  | zero => simp
  | succ k ih =>
      have hik' : i + k < s.length := by omega
      have h1 := ih hik'
      have h2 : s.get ⟨i + k, hik'⟩ < s.get ⟨i + k + 1, by omega⟩ :=
        h.rel_get_of_lt (Fin.mk_lt_mk.mpr (by omega))
      have h3 : s.get ⟨i + (k + 1), hik⟩ = s.get ⟨i + k + 1, by omega⟩ := by
        congr 1
      rw [h3]
      push_cast
      omega

theorem sorted_lt_index_lt {s : List Int} (h : List.Sorted (· < ·) s)
    {a b : Fin s.length} (hab : s.get a < s.get b) : a < b := by
  rcases lt_trichotomy a b with hlt | heq | hgt
  · exact hlt
  · rw [heq] at hab; exact absurd hab (lt_irrefl _)
  · exact absurd (h.rel_get_of_lt hgt) (by omega)

/-- In a strictly sorted list that contains the consecutive run
`p, p+1, …, p+(L-1)`, the run occupies consecutive indices starting at the
index of `p`. -/
theorem sorted_run_get {s : List Int} (hlt : List.Sorted (· < ·) s)
    {p : Int} {L : Nat} (hmem : ∀ k : Nat, k < L → p + (k : Int) ∈ s)
    {i0 : Nat} (hi0 : i0 < s.length) (h0 : s.get ⟨i0, hi0⟩ = p) :
    ∀ k : Nat, k < L →
      ∃ hk : i0 + k < s.length, s.get ⟨i0 + k, hk⟩ = p + (k : Int) := by
  intro k
  induction k with
  | zero =>
      intro _
      exact ⟨by omega, by simpa using h0⟩
  | succ k ih =>
      intro hkL
      obtain ⟨hk, hgetk⟩ := ih (by omega)
      obtain ⟨j, hj⟩ := List.get_of_mem (hmem (k + 1) hkL)
      have hgt : s.get ⟨i0 + k, hk⟩ < s.get j := by
        rw [hgetk, hj]
        push_cast
        omega
      have hij : i0 + k < (j : Nat) := by
        have hfin := sorted_lt_index_lt hlt hgt
        rw [Fin.lt_def] at hfin
        simpa using hfin
      have hlen : i0 + (k + 1) < s.length := by
        have := j.isLt
        omega
      refine ⟨hlen, ?_⟩
      have hle : s.get ⟨i0 + (k + 1), hlen⟩ ≤ s.get j := by
        rcases Nat.lt_or_ge (i0 + (k + 1)) (j : Nat) with hlt2 | hge
        · refine le_of_lt (hlt.rel_get_of_lt ?_)
          rw [Fin.lt_def]
          simpa using hlt2
        · have hje : j = (⟨i0 + (k + 1), hlen⟩ : Fin s.length) :=
            Fin.ext (by show (j : Nat) = i0 + (k + 1); omega)
          rw [hje]
      have hge2 : s.get ⟨i0 + k, hk⟩ < s.get ⟨i0 + (k + 1), hlen⟩ :=
        hlt.rel_get_of_lt (Fin.mk_lt_mk.mpr (by omega))
      rw [hj] at hle
      rw [hgetk] at hge2
      push_cast at hle hge2 ⊢
      omega

/-- Claim C2, amended: on duplicate-free position lists `is_exact_match`
decides the existence of an ascending step-1 run of length `L` — i.e. of an
integer `p` with `p, p+1, …, p+(L-1)` all present.  (With duplicates the
sorted-window test can err in both directions; see the counterexample.) -/
theorem c2_run_iff (l : List Int) (L : Nat) (hL : 1 ≤ L) (hnd : l.Nodup) :
    is_exact_match l L = true ↔
      ∃ p : Int, ∀ k : Nat, k < L → (p + (k : Int)) ∈ l := by
  have hperm : (List.insertionSort (· ≤ ·) l).Perm l := List.perm_insertionSort _ l
  have hsorted : List.Sorted (· ≤ ·) (List.insertionSort (· ≤ ·) l) :=
    List.sorted_insertionSort _ l
  have hndup : (List.insertionSort (· ≤ ·) l).Nodup := hperm.symm.nodup hnd
  have hlt : List.Sorted (· < ·) (List.insertionSort (· ≤ ·) l) :=
    hsorted.lt_of_le hndup
  have hslen : (List.insertionSort (· ≤ ·) l).length = l.length := hperm.length_eq
  constructor
  · intro htrue
    by_cases hguard : l.length < L
    · unfold is_exact_match at htrue
      rw [if_pos hguard] at htrue
      simp at htrue
    · unfold is_exact_match at htrue
      rw [if_neg hguard, List.any_eq_true] at htrue
      obtain ⟨i, hi, hwin⟩ := htrue
      rw [List.mem_range] at hi
      simp only [beq_iff_eq] at hwin
      have hin : i + (L - 1) < (List.insertionSort (· ≤ ·) l).length := by omega
      have hi0lt : i < (List.insertionSort (· ≤ ·) l).length := by omega
      rw [(by omega : (i : Int) + (L : Int) - 1 = ((i + (L - 1) : Nat) : Int))] at hwin
      rw [pyIdx_coe_eq_get _ _ hin, pyIdx_coe_eq_get _ _ hi0lt] at hwin
      refine ⟨(List.insertionSort (· ≤ ·) l).get ⟨i, hi0lt⟩, fun k hk => ?_⟩
      have hik : i + k < (List.insertionSort (· ≤ ·) l).length := by omega
      have h2 : i + k + (L - 1 - k) < (List.insertionSort (· ≤ ·) l).length := by omega
      have hlow := sorted_lt_get_add hlt i k hi0lt hik
      have hhigh := sorted_lt_get_add hlt (i + k) (L - 1 - k) hik h2
      have hco : (⟨i + k + (L - 1 - k), h2⟩ :
            Fin (List.insertionSort (· ≤ ·) l).length) = ⟨i + (L - 1), hin⟩ :=
        Fin.ext (by show i + k + (L - 1 - k) = i + (L - 1); omega)
      rw [hco] at hhigh
      have hval : (List.insertionSort (· ≤ ·) l).get ⟨i + k, hik⟩ =
          (List.insertionSort (· ≤ ·) l).get ⟨i, hi0lt⟩ + (k : Int) := by omega
      have hm : (List.insertionSort (· ≤ ·) l).get ⟨i + k, hik⟩ ∈
          List.insertionSort (· ≤ ·) l := List.get_mem _ _ _
      rw [hval] at hm
      exact hperm.mem_iff.mp hm
  · rintro ⟨p, hp⟩
    have hp0 : p ∈ List.insertionSort (· ≤ ·) l := by
      have hm := hperm.mem_iff.mpr (hp 0 (by omega))
      simpa using hm
    obtain ⟨⟨i0, hi0lt⟩, hi0⟩ := List.get_of_mem hp0
    have hrun := sorted_run_get hlt (fun k hk => hperm.mem_iff.mpr (hp k hk)) hi0lt hi0
    obtain ⟨hend, hgetend⟩ := hrun (L - 1) (by omega)
    unfold is_exact_match
    rw [if_neg (by omega), List.any_eq_true]
    refine ⟨i0, List.mem_range.mpr (by omega), ?_⟩
    simp only [beq_iff_eq]
    rw [(by omega : (i0 : Int) + (L : Int) - 1 = ((i0 + (L - 1) : Nat) : Int))]
    rw [pyIdx_coe_eq_get _ _ hend, pyIdx_coe_eq_get _ _ hi0lt]
    rw [hgetend, hi0]
    omega

/-- Witness for the amended C2 theorem: `[5, 3, 4]` (duplicate-free)
contains the run `3, 4, 5` and `is_exact_match` reports it. -/
theorem c2_run_iff_witness : is_exact_match [5, 3, 4] 3 = true :=
  (c2_run_iff [5, 3, 4] 3 (by decide) (by decide)).mpr
    ⟨3, by decide⟩

/-- Counterexample to claim C2 as stated: on the (duplicate-carrying) list
`[0, 0, 2]` with `L = 3` the code returns `true` — the sorted window
`[0, 0, 2]` has spread `2 = L − 1` — although the values `0, 1, 2` are not
all present, so no ascending step-1 run of length 3 exists. -/
theorem c2_counterexample :
    is_exact_match [0, 0, 2] 3 = true ∧
      ¬ ∃ p : Int, ∀ k : Nat, k < 3 → (p + (k : Int)) ∈ ([0, 0, 2] : List Int) := by
  constructor
  · rfl
  · rintro ⟨p, hp⟩
    have h0 := hp 0 (by omega)
    have h1 := hp 1 (by omega)
    simp only [Nat.cast_zero, add_zero, Nat.cast_one, List.mem_cons,
      List.not_mem_nil, or_false] at h0 h1
    omega

/-- Claim C10: `is_exact_match` is invariant under permutation of the
input positions, because the helper sorts before scanning. -/
theorem c10_perm_invariant (l l' : List Int) (L : Nat) (h : l.Perm l') :
    is_exact_match l L = is_exact_match l' L := by
  have hsort : List.insertionSort (· ≤ ·) l = List.insertionSort (· ≤ ·) l' :=
    List.eq_of_perm_of_sorted
      ((List.perm_insertionSort _ l).trans
        (h.trans (List.perm_insertionSort _ l').symm))
      (List.sorted_insertionSort _ l) (List.sorted_insertionSort _ l')
  unfold is_exact_match
  rw [h.length_eq, hsort]

/-- Witness for C10 at a concrete permutation pair. -/
theorem c10_perm_invariant_witness :
    is_exact_match [2, 0, 7] 2 = is_exact_match [7, 2, 0] 2 :=
  c10_perm_invariant [2, 0, 7] [7, 2, 0] 2 (by decide)

/- ------------------------------------------------------------------ -/
/- src/index/storage.py: the positional inverted index store.         -/
/-                                                                    -/
/- Python dicts are modelled as insertion-ordered association lists   -/
/- (`alGet` is key lookup, `alSet` is `dict[k] = v`: it overwrites in -/
/- place or appends a fresh key at the end, exactly the dict order    -/
/- semantics).  The wall-clock flush condition of `add_term` is an    -/
/- explicit boolean oracle `timerExpired`.                            -/
/- ------------------------------------------------------------------ -/

/-- Association-list lookup, the model of `d[k]` / `k in d`. -/
def alGet {K A : Type} [DecidableEq K] (k : K) : List (K × A) → Option A
  | [] => none
  | (k2, v) :: t => if k = k2 then some v else alGet k t

/-- Association-list update, the model of `d[k] = v`. -/
def alSet {K A : Type} [DecidableEq K] (k : K) (v : A) : List (K × A) → List (K × A)
  | [] => [(k, v)]
  | (k2, v2) :: t => if k = k2 then (k, v) :: t else (k2, v2) :: alSet k v t

/-- A posting: `{"tf": …, "positions": […]}`. -/
structure Posting where
  tf : Nat
  positions : List Int
deriving Repr, DecidableEq

/-- The `defaultdict` default posting `{"tf": 0, "positions": []}`. -/
def emptyPosting : Posting := ⟨0, []⟩

/-- One term's postings. -/
abbrev DocMap := List (String × Posting)

/-- Mapping `term → doc_id → Posting`, the shape of both the main index and the
write buffer. -/
abbrev InvIndex := List (String × DocMap)

/-- Value of `config.INDEX_BUFFER_SIZE`. -/
def INDEX_BUFFER_SIZE : Nat := 100000

/-- The mutable state of `IndexStorage` (`src/index/storage.py`). -/
structure IndexStorage where
  index : InvIndex
  doc_lengths : List (String × Nat)
  total_docs : Nat
  vocabulary : List String
  write_buffer : InvIndex
  buffer_size : Nat
deriving Repr, DecidableEq

/-- A fresh `IndexStorage()`. -/
def emptyStorage : IndexStorage :=
  { index := [], doc_lengths := [], total_docs := 0, vocabulary := []
    write_buffer := [], buffer_size := 0 }

/-- One buffered position event:
`_write_buffer[term][doc_id]["tf"] += 1; ….append(position)`. -/
def bufAdd (term doc : String) (position : Int) (buf : InvIndex) : InvIndex :=
  let docs := (alGet term buf).getD []
  let p := (alGet doc docs).getD emptyPosting
  alSet term
    (alSet doc { tf := p.tf + 1, positions := p.positions ++ [position] } docs)
    buf

/-- Merge one buffered doc-map into the index entry of the same term
(the inner loop of `_flush_buffer`). -/
def flushDoc (docs : DocMap) (entry : DocMap) : DocMap :=
  docs.foldl
    (fun e pr =>
      let old := (alGet pr.1 e).getD emptyPosting
      alSet pr.1
        { tf := old.tf + pr.2.tf, positions := old.positions ++ pr.2.positions } e)
    entry

/-- One term of `_flush_buffer`: create the index entry (and vocabulary
entry) if the term is new, then merge its buffered doc-map. -/
def flushStep (acc : InvIndex × List String) (entry : String × DocMap) :
    InvIndex × List String :=
  match alGet entry.1 acc.1 with
  | some base => (alSet entry.1 (flushDoc entry.2 base) acc.1, acc.2)
  | none => (alSet entry.1 (flushDoc entry.2 []) acc.1, acc.2 ++ [entry.1])

/-- Model of `IndexStorage._flush_buffer`: merge every buffered posting into the
main index, then clear the buffer. -/
def flush_buffer (s : IndexStorage) : IndexStorage :=
  let r := s.write_buffer.foldl flushStep (s.index, s.vocabulary)
  { s with index := r.1, vocabulary := r.2, write_buffer := [], buffer_size := 0 }

/-- Model of `IndexStorage.add_term`.  `timerExpired` stands for the wall-clock
condition `current_time - last_flush_time >= flush_interval`. -/
def add_term (timerExpired : Bool) (term doc : String) (position : Int)
    (s : IndexStorage) : IndexStorage :=
  let s2 := { s with write_buffer := bufAdd term doc position s.write_buffer
                     buffer_size := s.buffer_size + 1 }
  if INDEX_BUFFER_SIZE ≤ s2.buffer_size ∨ timerExpired then flush_buffer s2 else s2

/-- Model of `IndexStorage.update_doc_length`. -/
def update_doc_length (doc : String) (n : Nat) (s : IndexStorage) : IndexStorage :=
  { s with doc_lengths := alSet doc n s.doc_lengths }

/-- The buffered-event loop of `batch_add_terms` for one `(term, doc_id)`
position list. -/
def bufAddMany (term doc : String) (ps : List Int) (s : IndexStorage) : IndexStorage :=
  ps.foldl
    (fun acc p =>
      { acc with write_buffer := bufAdd term doc p acc.write_buffer
                 buffer_size := acc.buffer_size + 1 })
    s

/-- The middle loop of `batch_add_terms`: all documents of one term. -/
def docFold (term : String) (des : List (String × List Int))
    (s : IndexStorage) : IndexStorage :=
  des.foldl (fun acc de => bufAddMany term de.1 de.2 acc) s

/-- The outer loop of `batch_add_terms`: all terms of the batch. -/
def batchFold (tdp : List (String × List (String × List Int)))
    (s : IndexStorage) : IndexStorage :=
  tdp.foldl (fun acc e => docFold e.1 e.2 acc) s

/-- Model of `IndexStorage.batch_add_terms` (`{term: {doc_id: [positions]}}`);
flushes only on the size threshold. -/
def batch_add_terms (tdp : List (String × List (String × List Int)))
    (s : IndexStorage) : IndexStorage :=
  let s2 := batchFold tdp s
  if INDEX_BUFFER_SIZE ≤ s2.buffer_size then flush_buffer s2 else s2

/-- Test `term in self._write_buffer`. -/
def bufHasTerm (s : IndexStorage) (t : String) : Bool :=
  (alGet t s.write_buffer).isSome

/-- Test `term in self._write_buffer and doc_id in self._write_buffer[term]`
(the read guard of `get_term_positions`; the short-circuit `and` never
creates a spurious `defaultdict` entry). -/
def bufHasPair (s : IndexStorage) (t d : String) : Bool :=
  match alGet t s.write_buffer with
  | some m => (alGet d m).isSome
  | none => false

/-- Model of `IndexStorage.get_term_info`: flush the whole buffer when the queried
term is buffered, then read the main index. -/
def get_term_info (t : String) (s : IndexStorage) : DocMap × IndexStorage :=
  let s2 := if bufHasTerm s t then flush_buffer s else s
  ((alGet t s2.index).getD [], s2)

/-- Model of `IndexStorage.get_doc_frequency`. -/
def get_doc_frequency (t : String) (s : IndexStorage) : Nat × IndexStorage :=
  let s2 := if bufHasTerm s t then flush_buffer s else s
  (((alGet t s2.index).getD []).length, s2)

/-- Model of `IndexStorage.get_term_positions`: flushes only when the exact
`(term, doc_id)` pair is buffered. -/
def get_term_positions (t d : String) (s : IndexStorage) : List Int × IndexStorage :=
  let s2 := if bufHasPair s t d then flush_buffer s else s
  (match alGet t s2.index with
   | some m => match alGet d m with
     | some p => p.positions
     | none => []
   | none => [], s2)

/-- The key set of one term's postings. -/
def keySetOf (idx : InvIndex) (t : String) : Finset String :=
  (((alGet t idx).getD []).map Prod.fst).toFinset

/-- The candidate-intersection loop of `get_docs_with_terms`
(`first` flag included; a missing term exits with the empty set). -/
def docsLoop (idx : InvIndex) (docs : Finset String) (first : Bool) :
    List String → Finset String
  | [] => docs
  | t :: rest =>
      match alGet t idx with
      | some m =>
          if first then docsLoop idx ((m.map Prod.fst).toFinset) false rest
          else docsLoop idx (docs ∩ (m.map Prod.fst).toFinset) false rest
      | none => ∅

/-- Model of `IndexStorage.get_docs_with_terms`: flush if any queried term is
buffered, empty set for an empty query, else the intersection loop. -/
def get_docs_with_terms (terms : List String) (s : IndexStorage) :
    Finset String × IndexStorage :=
  let s2 := if terms.any (bufHasTerm s) then flush_buffer s else s
  if terms.isEmpty then (∅, s2)
  else (docsLoop s2.index ∅ true terms, s2)

/- Membership characterization of the intersection loop. -/

theorem mem_docsLoop_false (idx : InvIndex) (docs : Finset String)
    (ts : List String) (d : String) :
    d ∈ docsLoop idx docs false ts ↔ d ∈ docs ∧ ∀ t ∈ ts, d ∈ keySetOf idx t := by
  induction ts generalizing docs with
  | nil => simp [docsLoop]
  | cons t rest ih =>
      cases h : alGet t idx with
      | none => simp [docsLoop, h, keySetOf]
      | some m => simp [docsLoop, h, ih, keySetOf, and_assoc]

theorem mem_docsLoop_true (idx : InvIndex) (t : String) (rest : List String)
    (d : String) :
    d ∈ docsLoop idx ∅ true (t :: rest) ↔
      ∀ u ∈ t :: rest, d ∈ keySetOf idx u := by
  cases h : alGet t idx with
  | none => simp [docsLoop, h, keySetOf]
  | some m => simp [docsLoop, h, mem_docsLoop_false, keySetOf]

/-- Claim C6: `get_docs_with_terms(T)` is exactly the set of documents
lying in the key set of `index[t]` for every `t ∈ T` (the key set of a
missing term being empty, so any unknown term gives the empty result), and
it is empty for the empty query.  `index` is the store's index as observed
by the read (the second component, honouring read-your-writes). -/
theorem c6_docs_intersection (s : IndexStorage) (terms : List String) (d : String) :
    d ∈ (get_docs_with_terms terms s).1 ↔
      terms ≠ [] ∧
        ∀ t ∈ terms, d ∈ keySetOf (get_docs_with_terms terms s).2.index t := by
  cases terms with
  | nil => simp [get_docs_with_terms]
  | cons t rest =>
      simp only [get_docs_with_terms, List.isEmpty_cons, Bool.false_eq_true,
        if_false, ne_eq, reduceCtorEq, not_false_eq_true, true_and]
      exact mem_docsLoop_true _ t rest d

/- ------------------------------------------------------------------ -/
/- Claim C4: which reads flush the buffer.                            -/
/- ------------------------------------------------------------------ -/

/-- Claim C4, amended: `get_term_info`, `get_doc_frequency` and
`get_docs_with_terms` flush the entire write buffer whenever a queried
term has a buffered entry (leaving the buffer empty afterwards, and
untouched otherwise); `get_term_positions` flushes only when its exact
`(term, doc_id)` pair is buffered, so after it the buffer may still hold
entries for the queried term. -/
theorem c4_read_flush_behaviour :
    (∀ (s : IndexStorage) (t : String),
        (get_term_info t s).2.write_buffer
          = if bufHasTerm s t then [] else s.write_buffer)
  ∧ (∀ (s : IndexStorage) (t : String),
        (get_doc_frequency t s).2.write_buffer
          = if bufHasTerm s t then [] else s.write_buffer)
  ∧ (∀ (s : IndexStorage) (terms : List String),
        (get_docs_with_terms terms s).2.write_buffer
          = if terms.any (bufHasTerm s) then [] else s.write_buffer)
  ∧ (∀ (s : IndexStorage) (t d : String),
        (get_term_positions t d s).2.write_buffer
          = if bufHasPair s t d then [] else s.write_buffer) := by
  refine ⟨fun s t => ?_, fun s t => ?_, fun s terms => ?_, fun s t d => ?_⟩
  · by_cases h : bufHasTerm s t <;> simp [get_term_info, flush_buffer, h]
  · by_cases h : bufHasTerm s t <;> simp [get_doc_frequency, flush_buffer, h]
  · by_cases h : terms.any (bufHasTerm s) <;>
      cases he : terms.isEmpty <;>
      simp [get_docs_with_terms, flush_buffer, h, he]
  · by_cases h : bufHasPair s t d <;> simp [get_term_positions, flush_buffer, h]

/-- A storage state whose buffer holds term `t` for document `d1` only. -/
def c4State : IndexStorage :=
  { index := [], doc_lengths := [], total_docs := 0, vocabulary := []
    write_buffer := [("t", [("d1", ⟨1, [0]⟩)])], buffer_size := 1 }

/-- Counterexample to claim C4 as stated: `get_term_positions("t", "d2")`
is a public read on term `t`, which has a buffered entry, yet the store
does not flush — the state (hence the buffer) is unchanged and term `t` is
still buffered after the read. -/
theorem c4_counterexample :
    bufHasTerm c4State "t" = true ∧
      (get_term_positions "t" "d2" c4State).2 = c4State ∧
      bufHasTerm (get_term_positions "t" "d2" c4State).2 "t" = true := by
  refine ⟨rfl, ?_, ?_⟩ <;> rfl

/- ------------------------------------------------------------------ -/
/- Claim C7: the posting invariant and insertion-order of positions.  -/
/- ------------------------------------------------------------------ -/

/- Association-list lemmas. -/

theorem alGet_alSet_self {K A : Type} [DecidableEq K] (k : K) (v : A)
    (l : List (K × A)) : alGet k (alSet k v l) = some v := by
  induction l with
  | nil => simp [alGet, alSet]
  | cons e t ih =>
      obtain ⟨k2, v2⟩ := e
      by_cases hk : k = k2 <;> simp [alGet, alSet, hk, ih]

theorem alGet_alSet_ne {K A : Type} [DecidableEq K] {k k2 : K} (h : k2 ≠ k)
    (v : A) (l : List (K × A)) : alGet k2 (alSet k v l) = alGet k2 l := by
  induction l with
  | nil => simp [alGet, alSet, h]
  | cons e t ih =>
      obtain ⟨k3, v3⟩ := e
      by_cases hk : k = k3
      · subst hk
        simp [alGet, alSet, h]
      · by_cases hk2 : k2 = k3 <;> simp [alGet, alSet, hk, hk2, ih]

theorem alGet_mem {K A : Type} [DecidableEq K] {l : List (K × A)} {k : K}
    {v : A} (h : alGet k l = some v) : (k, v) ∈ l := by
  induction l with
  | nil => simp [alGet] at h
  | cons e t ih =>
      obtain ⟨k2, v2⟩ := e
      by_cases hk : k = k2
      · subst hk
        simp [alGet] at h
        simp [h]
      · simp [alGet, hk] at h
        simp [ih h]

theorem alGet_none_of_not_mem {K A : Type} [DecidableEq K] {l : List (K × A)}
    {k : K} (h : k ∉ l.map Prod.fst) : alGet k l = none := by
  induction l with
  | nil => rfl
  | cons e t ih =>
      obtain ⟨k2, v2⟩ := e
      have h1 : ¬ k = k2 := fun hk => h (by simp [hk])
      have h2 : k ∉ t.map Prod.fst := fun hk => h (by simp [hk])
      simp [alGet, h1, ih h2]

theorem mem_alSet {K A : Type} [DecidableEq K] {l : List (K × A)} {k : K}
    {v : A} {x : K × A} (hx : x ∈ alSet k v l) : x = (k, v) ∨ x ∈ l := by
  induction l with
  | nil => simpa [alSet] using hx
  | cons e t ih =>
      obtain ⟨k2, v2⟩ := e
      by_cases hk : k = k2
      · subst hk
        rw [alSet, if_pos rfl] at hx
        rcases List.mem_cons.mp hx with h | h
        · exact Or.inl h
        · exact Or.inr (List.mem_cons.mpr (Or.inr h))
      · rw [alSet, if_neg hk] at hx
        rcases List.mem_cons.mp hx with h | h
        · exact Or.inr (List.mem_cons.mpr (Or.inl h))
        · rcases ih h with h2 | h2
          · exact Or.inl h2
          · exact Or.inr (List.mem_cons.mpr (Or.inr h2))

theorem mem_keys_alSet {K A : Type} [DecidableEq K] {l : List (K × A)}
    {k k2 : K} {v : A} (h : k2 ∈ (alSet k v l).map Prod.fst) :
    k2 = k ∨ k2 ∈ l.map Prod.fst := by
  rw [List.mem_map] at h
  obtain ⟨x, hx, hk⟩ := h
  rcases mem_alSet hx with h2 | h2
  · left
    rw [h2] at hk
    exact hk.symm
  · right
    exact List.mem_map.mpr ⟨x, h2, hk⟩

theorem alSet_keys_nodup {K A : Type} [DecidableEq K] {l : List (K × A)}
    (h : (l.map Prod.fst).Nodup) (k : K) (v : A) :
    ((alSet k v l).map Prod.fst).Nodup := by
  induction l with
  | nil => simp [alSet]
  | cons e t ih =>
      obtain ⟨k2, v2⟩ := e
      rw [List.map_cons, List.nodup_cons] at h
      by_cases hk : k = k2
      · subst hk
        rw [alSet, if_pos rfl, List.map_cons, List.nodup_cons]
        exact h
      · rw [alSet, if_neg hk, List.map_cons, List.nodup_cons]
        refine ⟨fun hmem => ?_, ih h.2⟩
        rcases mem_keys_alSet hmem with h2 | h2
        · exact hk h2.symm
        · exact h.1 h2

/- Well-formedness: every posting satisfies `tf == |positions|`, and every
modelled dict has duplicate-free keys (dict models only). -/

/-- The per-posting invariant of claim C7: `tf == |positions|`. -/
def postingWF (p : Posting) : Prop := p.tf = p.positions.length

instance : DecidablePred postingWF := fun p =>
  inferInstanceAs (Decidable (p.tf = p.positions.length))

/-- Well-formed doc-map: postings satisfy the invariant, keys are unique. -/
def mapWF (m : DocMap) : Prop :=
  (∀ e ∈ m, postingWF e.2) ∧ (m.map Prod.fst).Nodup

instance : DecidablePred mapWF := fun m =>
  inferInstanceAs (Decidable ((∀ e ∈ m, postingWF e.2) ∧ (m.map Prod.fst).Nodup))

/-- Well-formed two-level index (used for both index and buffer). -/
def idxWF (idx : InvIndex) : Prop :=
  (∀ e ∈ idx, mapWF e.2) ∧ (idx.map Prod.fst).Nodup

instance : DecidablePred idxWF := fun idx =>
  inferInstanceAs (Decidable ((∀ e ∈ idx, mapWF e.2) ∧ (idx.map Prod.fst).Nodup))

/-- Well-formed storage state: main index and write buffer both
well-formed. -/
def storageWF (s : IndexStorage) : Prop := idxWF s.index ∧ idxWF s.write_buffer

instance : DecidablePred storageWF := fun s =>
  inferInstanceAs (Decidable (idxWF s.index ∧ idxWF s.write_buffer))

theorem postingWF_empty : postingWF emptyPosting := rfl

theorem mapWF_getD {idx : InvIndex} (h : idxWF idx) (t : String) :
    mapWF ((alGet t idx).getD []) := by
  cases hg : alGet t idx with
  | none => exact ⟨by simp, by simp⟩
  | some m => exact h.1 _ (alGet_mem hg)

theorem postingWF_getD {m : DocMap} (h : mapWF m) (d : String) :
    postingWF ((alGet d m).getD emptyPosting) := by
  cases hg : alGet d m with
  | none => exact postingWF_empty
  | some p => exact h.1 _ (alGet_mem hg)

theorem mapWF_alSet {m : DocMap} (h : mapWF m) {p : Posting}
    (hp : postingWF p) (d : String) : mapWF (alSet d p m) := by
  refine ⟨fun e he => ?_, alSet_keys_nodup h.2 d p⟩
  rcases mem_alSet he with h2 | h2
  · rw [h2]
    exact hp
  · exact h.1 _ h2

theorem idxWF_alSet {idx : InvIndex} (h : idxWF idx) {m : DocMap}
    (hm : mapWF m) (t : String) : idxWF (alSet t m idx) := by
  refine ⟨fun e he => ?_, alSet_keys_nodup h.2 t m⟩
  rcases mem_alSet he with h2 | h2
  · rw [h2]
    exact hm
  · exact h.1 _ h2

theorem idxWF_bufAdd {buf : InvIndex} (h : idxWF buf) (t d : String)
    (p : Int) : idxWF (bufAdd t d p buf) := by
  unfold bufAdd
  refine idxWF_alSet h (mapWF_alSet (mapWF_getD h t) ?_ d) t
  have hold := postingWF_getD (mapWF_getD h t) d
  unfold postingWF at hold ⊢
  simp [hold]

theorem mapWF_flushDoc {docs base : DocMap} (hdocs : ∀ e ∈ docs, postingWF e.2)
    (hbase : mapWF base) : mapWF (flushDoc docs base) := by
  induction docs generalizing base with
  | nil => exact hbase
  | cons de rest ih =>
      have hstep : mapWF (alSet de.1
          { tf := ((alGet de.1 base).getD emptyPosting).tf + de.2.tf
            positions := ((alGet de.1 base).getD emptyPosting).positions
              ++ de.2.positions } base) := by
        refine mapWF_alSet hbase ?_ de.1
        have hold := postingWF_getD hbase de.1
        have hde := hdocs de (by simp)
        unfold postingWF at hold hde ⊢
        simp [hold, hde]
      exact ih (fun e he => hdocs e (by simp [he])) hstep

theorem idxWF_foldl_flushStep (buf : List (String × DocMap)) (idx : InvIndex)
    (voc : List String) (hidx : idxWF idx) (hbuf : ∀ e ∈ buf, mapWF e.2) :
    idxWF (buf.foldl flushStep (idx, voc)).1 := by
  induction buf generalizing idx voc with
  | nil => exact hidx
  | cons e rest ih =>
      have hstep : (flushStep (idx, voc) e).1
          = alSet e.1 (flushDoc e.2 ((alGet e.1 idx).getD [])) idx := by
        unfold flushStep
        cases h : alGet e.1 idx <;> simp [h]
      have hsnd : ∃ voc2, flushStep (idx, voc) e
          = (alSet e.1 (flushDoc e.2 ((alGet e.1 idx).getD [])) idx, voc2) := by
        unfold flushStep
        cases h : alGet e.1 idx <;> simp [h]
      obtain ⟨voc2, hv⟩ := hsnd
      rw [List.foldl_cons, hv]
      refine ih _ _ ?_ (fun x hx => hbuf x (by simp [hx]))
      exact idxWF_alSet hidx
        (mapWF_flushDoc (hbuf e (by simp)).1 (mapWF_getD hidx e.1)) e.1

theorem storageWF_flush {s : IndexStorage} (h : storageWF s) :
    storageWF (flush_buffer s) := by
  unfold flush_buffer
  refine ⟨idxWF_foldl_flushStep _ _ _ h.1 (fun e he => h.2.1 e he), ?_, ?_⟩
    <;> simp

theorem storageWF_add_term {s : IndexStorage} (h : storageWF s)
    (timer : Bool) (t d : String) (p : Int) :
    storageWF (add_term timer t d p s) := by
  unfold add_term
  have h2 : storageWF { s with write_buffer := bufAdd t d p s.write_buffer
                               buffer_size := s.buffer_size + 1 } :=
    ⟨h.1, idxWF_bufAdd h.2 t d p⟩
  dsimp only
  split
  · exact storageWF_flush h2
  · exact h2

theorem storageWF_bufAddMany {s : IndexStorage} (h : storageWF s)
    (t d : String) (ps : List Int) : storageWF (bufAddMany t d ps s) := by
  induction ps generalizing s with
  | nil => exact h
  | cons p rest ih =>
      exact ih ⟨h.1, idxWF_bufAdd h.2 t d p⟩

theorem storageWF_docFold {s : IndexStorage} (h : storageWF s) (t : String)
    (des : List (String × List Int)) : storageWF (docFold t des s) := by
  induction des generalizing s with
  | nil => exact h
  | cons de rest ih => exact ih (storageWF_bufAddMany h t de.1 de.2)

theorem storageWF_batchFold {s : IndexStorage} (h : storageWF s)
    (tdp : List (String × List (String × List Int))) :
    storageWF (batchFold tdp s) := by
  induction tdp generalizing s with
  | nil => exact h
  | cons e rest ih => exact ih (storageWF_docFold h e.1 e.2)

theorem storageWF_batch_add_terms {s : IndexStorage} (h : storageWF s)
    (tdp : List (String × List (String × List Int))) :
    storageWF (batch_add_terms tdp s) := by
  unfold batch_add_terms
  dsimp only
  split
  · exact storageWF_flush (storageWF_batchFold h tdp)
  · exact storageWF_batchFold h tdp

/- The "positions view": what the store logically holds for one
`(term, doc_id)` pair — main-index positions followed by buffered ones. -/

/-- Positions recorded for `doc` in one doc-map. -/
def mapPositions (m : DocMap) (d : String) : List Int :=
  ((alGet d m).getD emptyPosting).positions

/-- Positions recorded for `(t, d)` in one two-level index. -/
def idxPositions (idx : InvIndex) (t d : String) : List Int :=
  mapPositions ((alGet t idx).getD []) d

/-- The store's logical position list for `(t, d)`: main index first (older
events), then the write buffer (newer events). -/
def storedPositions (s : IndexStorage) (t d : String) : List Int :=
  idxPositions s.index t d ++ idxPositions s.write_buffer t d

theorem idxPositions_bufAdd (buf : InvIndex) (t1 d1 : String) (p : Int)
    (t d : String) :
    idxPositions (bufAdd t1 d1 p buf) t d
      = idxPositions buf t d ++ (if t1 = t ∧ d1 = d then [p] else []) := by
  by_cases ht : t1 = t
  · subst ht
    by_cases hd : d1 = d
    · subst hd
      simp [bufAdd, idxPositions, mapPositions, alGet_alSet_self]
    · simp only [bufAdd, idxPositions, mapPositions, alGet_alSet_self,
        Option.getD_some]
      rw [alGet_alSet_ne (fun h => hd h.symm)]
      simp [hd]
  · simp only [bufAdd, idxPositions, mapPositions]
    rw [alGet_alSet_ne (fun h => ht h.symm)]
    simp [ht]

theorem mapPositions_flushDoc (docs : DocMap)
    (hnd : (docs.map Prod.fst).Nodup) (base : DocMap) (d : String) :
    mapPositions (flushDoc docs base) d
      = mapPositions base d ++ mapPositions docs d := by
  induction docs generalizing base with
  | nil => simp [flushDoc, mapPositions, alGet, emptyPosting]
  | cons de rest ih =>
      obtain ⟨d1, p1⟩ := de
      rw [List.map_cons, List.nodup_cons] at hnd
      have hstep : flushDoc ((d1, p1) :: rest) base
          = flushDoc rest (alSet d1
              { tf := ((alGet d1 base).getD emptyPosting).tf + p1.tf
                positions := ((alGet d1 base).getD emptyPosting).positions
                  ++ p1.positions } base) := by
        simp [flushDoc]
      rw [hstep, ih hnd.2]
      by_cases hd : d = d1
      · subst hd
        have hnone : alGet d rest = none := alGet_none_of_not_mem hnd.1
        simp [mapPositions, alGet_alSet_self, alGet, hnone, emptyPosting]
      · have h1 : mapPositions (alSet d1
            { tf := ((alGet d1 base).getD emptyPosting).tf + p1.tf
              positions := ((alGet d1 base).getD emptyPosting).positions
                ++ p1.positions } base) d = mapPositions base d := by
          unfold mapPositions
          rw [alGet_alSet_ne hd]
        rw [h1]
        have h2 : mapPositions ((d1, p1) :: rest) d = mapPositions rest d := by
          unfold mapPositions
          rw [alGet, if_neg hd]
        rw [h2]

theorem idxPositions_foldl_flushStep (buf : List (String × DocMap))
    (hnd : (buf.map Prod.fst).Nodup)
    (hinner : ∀ e ∈ buf, (e.2.map Prod.fst).Nodup)
    (idx : InvIndex) (voc : List String) (t d : String) :
    idxPositions (buf.foldl flushStep (idx, voc)).1 t d
      = idxPositions idx t d ++ idxPositions buf t d := by
  induction buf generalizing idx voc with
  | nil => simp [idxPositions, mapPositions, alGet, emptyPosting]
  | cons e rest ih =>
      obtain ⟨t1, docs1⟩ := e
      rw [List.map_cons, List.nodup_cons] at hnd
      have hsnd : ∃ voc2, flushStep (idx, voc) (t1, docs1)
          = (alSet t1 (flushDoc docs1 ((alGet t1 idx).getD [])) idx, voc2) := by
        unfold flushStep
        cases h : alGet t1 idx <;> simp [h]
      obtain ⟨voc2, hv⟩ := hsnd
      rw [List.foldl_cons, hv,
        ih hnd.2 (fun x hx => hinner x (by simp [hx])) _ voc2]
      by_cases ht : t = t1
      · subst ht
        have hnone : alGet t rest = none := alGet_none_of_not_mem hnd.1
        have hdocs1 : idxPositions ((t, docs1) :: rest) t d
            = mapPositions docs1 d := by
          unfold idxPositions
          rw [alGet, if_pos rfl]
          rfl
        rw [hdocs1]
        have hflushed : idxPositions
            (alSet t (flushDoc docs1 ((alGet t idx).getD [])) idx) t d
            = idxPositions idx t d ++ mapPositions docs1 d := by
          unfold idxPositions
          rw [alGet_alSet_self]
          simp only [Option.getD_some]
          exact mapPositions_flushDoc docs1 (hinner (t, docs1) (by simp)) _ d
        rw [hflushed]
        have hrest : idxPositions rest t d = [] := by
          unfold idxPositions mapPositions
          rw [hnone]
          simp [alGet, emptyPosting]
        rw [hrest]
        simp
      · have h1 : idxPositions
            (alSet t1 (flushDoc docs1 ((alGet t1 idx).getD [])) idx) t d
            = idxPositions idx t d := by
          unfold idxPositions
          rw [alGet_alSet_ne ht]
        have h2 : idxPositions ((t1, docs1) :: rest) t d
            = idxPositions rest t d := by
          unfold idxPositions
          rw [alGet, if_neg ht]
        rw [h1, h2]

theorem storedPositions_flush {s : IndexStorage} (h : storageWF s)
    (t d : String) :
    storedPositions (flush_buffer s) t d = storedPositions s t d := by
  unfold storedPositions flush_buffer
  simp only
  rw [idxPositions_foldl_flushStep s.write_buffer h.2.2
    (fun e he => (h.2.1 e he).2) s.index s.vocabulary t d]
  simp [idxPositions, mapPositions, alGet, emptyPosting]

theorem storedPositions_add_term {s : IndexStorage} (h : storageWF s)
    (timer : Bool) (t1 d1 : String) (p : Int) (t d : String) :
    storedPositions (add_term timer t1 d1 p s) t d
      = storedPositions s t d ++ (if t1 = t ∧ d1 = d then [p] else []) := by
  unfold add_term
  dsimp only
  have h2 : storageWF { s with write_buffer := bufAdd t1 d1 p s.write_buffer
                               buffer_size := s.buffer_size + 1 } :=
    ⟨h.1, idxWF_bufAdd h.2 t1 d1 p⟩
  have hview : storedPositions { s with
      write_buffer := bufAdd t1 d1 p s.write_buffer
      buffer_size := s.buffer_size + 1 } t d
      = storedPositions s t d ++ (if t1 = t ∧ d1 = d then [p] else []) := by
    unfold storedPositions
    simp only
    rw [idxPositions_bufAdd s.write_buffer t1 d1 p t d, List.append_assoc]
  split
  · rw [storedPositions_flush h2 t d, hview]
  · exact hview

theorem storedPositions_bufAddMany {s : IndexStorage} (t1 d1 : String)
    (ps : List Int) (t d : String) :
    storedPositions (bufAddMany t1 d1 ps s) t d
      = storedPositions s t d ++ (if t1 = t ∧ d1 = d then ps else []) := by
  induction ps generalizing s with
  | nil => simp [bufAddMany]
  | cons p rest ih =>
      have hstep : bufAddMany t1 d1 (p :: rest) s
          = bufAddMany t1 d1 rest { s with
              write_buffer := bufAdd t1 d1 p s.write_buffer
              buffer_size := s.buffer_size + 1 } := by
        simp [bufAddMany]
      rw [hstep, ih]
      have hone : storedPositions { s with
          write_buffer := bufAdd t1 d1 p s.write_buffer
          buffer_size := s.buffer_size + 1 } t d
          = storedPositions s t d ++ (if t1 = t ∧ d1 = d then [p] else []) := by
        unfold storedPositions
        simp only
        rw [idxPositions_bufAdd s.write_buffer t1 d1 p t d, List.append_assoc]
      rw [hone]
      by_cases hc : t1 = t ∧ d1 = d <;> simp [hc]

/-- Positions a batch contributes to `(t, d)`, in iteration order. -/
def batchPositions (tdp : List (String × List (String × List Int)))
    (t d : String) : List Int :=
  tdp.flatMap fun e =>
    if e.1 = t then e.2.flatMap (fun de => if de.1 = d then de.2 else [])
    else []

theorem storedPositions_docFold {s : IndexStorage} (t1 : String)
    (des : List (String × List Int)) (t d : String) :
    storedPositions (docFold t1 des s) t d
      = storedPositions s t d
        ++ (if t1 = t then des.flatMap (fun de => if de.1 = d then de.2 else [])
            else []) := by
  induction des generalizing s with
  | nil => simp [docFold]
  | cons de rest ih =>
      have hstep : docFold t1 (de :: rest) s
          = docFold t1 rest (bufAddMany t1 de.1 de.2 s) := by
        simp [docFold]
      rw [hstep, ih, storedPositions_bufAddMany t1 de.1 de.2 t d]
      by_cases ht : t1 = t
      · subst ht
        by_cases hd : de.1 = d <;> simp [hd]
      · simp [ht]

theorem storedPositions_batchFold {s : IndexStorage}
    (tdp : List (String × List (String × List Int))) (t d : String) :
    storedPositions (batchFold tdp s) t d
      = storedPositions s t d ++ batchPositions tdp t d := by
  induction tdp generalizing s with
  | nil => simp [batchFold, batchPositions]
  | cons e rest ih =>
      have hstep : batchFold (e :: rest) s = batchFold rest (docFold e.1 e.2 s) := by
        simp [batchFold]
      rw [hstep, ih, storedPositions_docFold e.1 e.2 t d]
      simp [batchPositions, List.append_assoc]

theorem storedPositions_batch_add_terms {s : IndexStorage} (h : storageWF s)
    (tdp : List (String × List (String × List Int))) (t d : String) :
    storedPositions (batch_add_terms tdp s) t d
      = storedPositions s t d ++ batchPositions tdp t d := by
  unfold batch_add_terms
  dsimp only
  split
  · rw [storedPositions_flush (storageWF_batchFold h tdp) t d,
      storedPositions_batchFold tdp t d]
  · exact storedPositions_batchFold tdp t d

/-- The index mutations of `IndexStorage` relevant to postings, as an
operation trace (`timer` is the wall-clock flush oracle of `add_term`). -/
inductive IndexOp where
  | add (timer : Bool) (term doc : String) (pos : Int)
  | batch (tdp : List (String × List (String × List Int)))
  | flush
deriving Repr, DecidableEq

/-- Run a trace of mutations over a storage state. -/
def runOps : List IndexOp → IndexStorage → IndexStorage
  | [], s => s
  | op :: rest, s =>
      runOps rest
        (match op with
         | .add timer t d p => add_term timer t d p s
         | .batch tdp => batch_add_terms tdp s
         | .flush => flush_buffer s)

/-- The positions a trace inserts for `(t, d)`, in insertion order. -/
def addedPositions (ops : List IndexOp) (t d : String) : List Int :=
  ops.flatMap fun op =>
    match op with
    | .add _ t2 d2 p => if t2 = t ∧ d2 = d then [p] else []
    | .batch tdp => batchPositions tdp t d
    | .flush => []

theorem storageWF_runOps (ops : List IndexOp) {s : IndexStorage}
    (h : storageWF s) : storageWF (runOps ops s) := by
  induction ops generalizing s with
  | nil => exact h
  | cons op rest ih =>
      cases op with
      | add timer t d p => exact ih (storageWF_add_term h timer t d p)
      | batch tdp => exact ih (storageWF_batch_add_terms h tdp)
      | flush => exact ih (storageWF_flush h)

theorem storedPositions_runOps (ops : List IndexOp) {s : IndexStorage}
    (h : storageWF s) (t d : String) :
    storedPositions (runOps ops s) t d
      = storedPositions s t d ++ addedPositions ops t d := by
  induction ops generalizing s with
  | nil => simp [runOps, addedPositions]
  | cons op rest ih =>
      cases op with
      | add timer t1 d1 p =>
          rw [runOps, ih (storageWF_add_term h timer t1 d1 p),
            storedPositions_add_term h timer t1 d1 p t d]
          simp [addedPositions, List.append_assoc]
      | batch tdp =>
          rw [runOps, ih (storageWF_batch_add_terms h tdp),
            storedPositions_batch_add_terms h tdp t d]
          simp [addedPositions, List.append_assoc]
      | flush =>
          rw [runOps, ih (storageWF_flush h), storedPositions_flush h t d]
          simp [addedPositions]

theorem storageWF_empty : storageWF emptyStorage := by decide

theorem storedPositions_empty (t d : String) :
    storedPositions emptyStorage t d = [] := rfl

/-- Claim C7: every posting mutation (`add_term`, `batch_add_terms` and the
internal buffer flush) preserves `tf == |positions|` for every posting in
buffer and index (`storageWF` also carries the dict-model fact that keys
are duplicate-free); positions of a `(term, doc_id)` pair are stored in
exactly the order they were added across any mutation trace; hence under
non-decreasing in-range insertion the stored positions are non-decreasing
integers in `[0, n)`. -/
theorem c7_postings_invariant :
    (∀ (timer : Bool) (t d : String) (p : Int) (s : IndexStorage),
        storageWF s → storageWF (add_term timer t d p s))
  ∧ (∀ (tdp : List (String × List (String × List Int))) (s : IndexStorage),
        storageWF s → storageWF (batch_add_terms tdp s))
  ∧ (∀ (s : IndexStorage), storageWF s → storageWF (flush_buffer s))
  ∧ (∀ (ops : List IndexOp) (t d : String),
        storedPositions (runOps ops emptyStorage) t d = addedPositions ops t d)
  ∧ (∀ (ops : List IndexOp) (t d : String) (n : Int),
        List.Chain' (· ≤ ·) (addedPositions ops t d) →
        (∀ p ∈ addedPositions ops t d, 0 ≤ p ∧ p < n) →
        List.Chain' (· ≤ ·) (storedPositions (runOps ops emptyStorage) t d)
          ∧ ∀ p ∈ storedPositions (runOps ops emptyStorage) t d,
              0 ≤ p ∧ p < n) := by
  have hrun : ∀ (ops : List IndexOp) (t d : String),
      storedPositions (runOps ops emptyStorage) t d = addedPositions ops t d := by
    intro ops t d
    rw [storedPositions_runOps ops storageWF_empty t d, storedPositions_empty]
    rfl
  refine ⟨fun timer t d p s h => storageWF_add_term h timer t d p,
    fun tdp s h => storageWF_batch_add_terms h tdp,
    fun s h => storageWF_flush h,
    hrun,
    fun ops t d n hchain hbound => ?_⟩
  rw [hrun ops t d]
  exact ⟨hchain, hbound⟩

/-- Witness for C7 at a concrete trace: an `add_term`, a batch and a flush
whose inserted positions `0, 1, 2` are ascending and below `n = 3`. -/
theorem c7_postings_invariant_witness :
    storageWF (add_term false "a" "d" 0 emptyStorage)
  ∧ storageWF (batch_add_terms [("a", [("d", [1, 2])])] emptyStorage)
  ∧ storageWF (flush_buffer emptyStorage)
  ∧ storedPositions (runOps [IndexOp.add false "a" "d" 0,
        IndexOp.batch [("a", [("d", [1, 2])])], IndexOp.flush]
        emptyStorage) "a" "d" = [0, 1, 2]
  ∧ List.Chain' (· ≤ ·) (storedPositions (runOps [IndexOp.add false "a" "d" 0,
        IndexOp.batch [("a", [("d", [1, 2])])], IndexOp.flush]
        emptyStorage) "a" "d")
  ∧ (∀ p ∈ storedPositions (runOps [IndexOp.add false "a" "d" 0,
        IndexOp.batch [("a", [("d", [1, 2])])], IndexOp.flush]
        emptyStorage) "a" "d", 0 ≤ p ∧ p < 3) := by
  have h := c7_postings_invariant
  have hwf : storageWF emptyStorage := by decide
  have hadded : addedPositions [IndexOp.add false "a" "d" 0,
      IndexOp.batch [("a", [("d", [1, 2])])], IndexOp.flush] "a" "d"
      = [0, 1, 2] := by decide
  have h5 := h.2.2.2.2 [IndexOp.add false "a" "d" 0,
    IndexOp.batch [("a", [("d", [1, 2])])], IndexOp.flush] "a" "d" 3
    (by rw [hadded]; norm_num [List.chain'_cons])
    (by rw [hadded]; decide)
  refine ⟨h.1 false "a" "d" 0 emptyStorage hwf,
    h.2.1 [("a", [("d", [1, 2])])] emptyStorage hwf,
    h.2.2.1 emptyStorage hwf, ?_, h5.1, h5.2⟩
  rw [h.2.2.2.1 [IndexOp.add false "a" "d" 0,
    IndexOp.batch [("a", [("d", [1, 2])])], IndexOp.flush] "a" "d"]
  decide

/- ------------------------------------------------------------------ -/
/- src/index/storage.py, load_index.                                  -/
/- ------------------------------------------------------------------ -/

/-- A pickling failure (`pickle.UnpicklingError` and kin), which the
`except (FileNotFoundError, KeyError)` clause of `load_index` does NOT
catch. -/
inductive PickleErr where
  | unpickling
deriving Repr, DecidableEq

/-- A successfully unpickled payload; each field is `none` when the
corresponding dict key is absent (so that `data[key]` raises `KeyError`). -/
structure LoadPayload where
  index : Option InvIndex
  doc_lengths : Option (List (String × Nat))
  total_docs : Option Nat
  vocabulary : Option (List String)
deriving Repr, DecidableEq

/-- Outcome of `load_index`: a returned boolean or a propagated error. -/
inductive LoadOutcome where
  | ret (b : Bool)
  | raised (e : PickleErr)
deriving Repr, DecidableEq

/-- Model of `IndexStorage.load_index`.  `file = none` models a missing index file
(`os.path.exists` fails); `some (Except.error e)` a file whose blob does
not unpickle (the error propagates — the except clause catches only
`FileNotFoundError` and `KeyError`); `some (Except.ok data)` an unpickled
dict.  The four assignments run in source order, so a `KeyError` on a later
key is caught AFTER the earlier fields were already overwritten. -/
def load_index (s : IndexStorage)
    (file : Option (Except PickleErr LoadPayload)) :
    LoadOutcome × IndexStorage :=
  match file with
  | none => (.ret false, s)
  | some (.error e) => (.raised e, s)
  | some (.ok data) =>
      match data.index with
      | none => (.ret false, s)
      | some idx =>
          match data.doc_lengths with
          | none => (.ret false, { s with index := idx })
          | some dl =>
              match data.total_docs with
              | none => (.ret false, { s with index := idx, doc_lengths := dl })
              | some td =>
                  match data.vocabulary with
                  | none => (.ret false,
                      { s with index := idx, doc_lengths := dl, total_docs := td })
                  | some v => (.ret true,
                      { s with index := idx, doc_lengths := dl,
                               total_docs := td, vocabulary := v })

/-- Claim C9, amended: a missing index file yields `false` with the state
unchanged; an unpicklable blob raises to the caller; but a well-pickled
payload that lacks an expected key is silently swallowed — `load_index`
returns `false` (no error surfaces), after overwriting the fields read
before the missing key. -/
theorem c9_load_behaviour :
    (∀ s : IndexStorage, load_index s none = (.ret false, s))
  ∧ (∀ (s : IndexStorage) (e : PickleErr),
        load_index s (some (.error e)) = (.raised e, s))
  ∧ (∀ (s : IndexStorage) (idx : InvIndex),
        load_index s (some (.ok ⟨some idx, none, none, none⟩))
          = (.ret false, { s with index := idx })) :=
  ⟨fun _ => rfl, fun _ _ => rfl, fun _ _ => rfl⟩

/-- Counterexample to claim C9 as stated: a payload holding only the
`index` key is malformed, yet `load_index` returns `false` instead of
surfacing an error (the `KeyError` on `doc_lengths` is caught), and the
in-memory index was already overwritten. -/
theorem c9_counterexample :
    (load_index emptyStorage
        (some (.ok ⟨some [("a", [("d", ⟨1, [0]⟩)])], none, none, none⟩))).1
      = LoadOutcome.ret false
    ∧ (load_index emptyStorage
        (some (.ok ⟨some [("a", [("d", ⟨1, [0]⟩)])], none, none, none⟩))).2.index
      = [("a", [("d", ⟨1, [0]⟩)])] :=
  ⟨rfl, rfl⟩

/- ------------------------------------------------------------------ -/
/- src/preprocess/tokenizer.py (non-NLTK fallback path) and           -/
/- src/search/query_parser.py, QueryParser.parse.                     -/
/- ------------------------------------------------------------------ -/

/-- Characters of `string.punctuation`. -/
def pythonPunctuation : List Char :=
  "!\"#$%&'()*+,-./:;<=>?@[\\]^_`\x7b|\x7d~".toList

/-- The built-in stopword list used when NLTK is absent. -/
def STOP_WORDS : List String :=
  ["a", "an", "the", "and", "or", "but", "if", "because", "as", "what",
   "which", "this", "that", "these", "those", "then", "just", "so", "than",
   "such", "both", "through", "about", "between", "after", "before", "during",
   "in", "to", "from", "of", "at", "by", "for", "with", "against", "on", "into"]

/-- Model of `Tokenizer.tokenize`, non-NLTK path, defaults
`case_sensitive=False`, `remove_punctuation=True`, `min_token_length=2`:
lower-case, replace punctuation by spaces, split on whitespace, keep
tokens of length ≥ 2, optionally drop stopwords. -/
def tokenize (remove_stopwords : Bool) (text : String) : List String :=
  if text = "" then []
  else
    let lowered := text.toList.map Char.toLower
    let replaced := lowered.map fun c =>
      if pythonPunctuation.contains c then ' ' else c
    let words := (replaced.splitOnP Char.isWhitespace).filter (· ≠ [])
    let toks := (words.filter (fun w => 2 ≤ w.length)).map String.mk
    if remove_stopwords then toks.filter (fun t => ¬ t ∈ STOP_WORDS) else toks

/-- The quote-pairing pass of `QueryParser.parse`: the parts of the query
split on every `"`; odd-indexed parts enclosed by a complete quote pair
become phrases, the rest (plus a trailing unmatched quote) stays free
text, exactly like `re.finditer` / `re.sub` with pattern `"([^"]*)"`. -/
def collectQuoteParts : List (List Char) → List (List Char) × List Char
  | [] => ([], [])
  | [x] => ([], x)
  | [x, y] => ([], x ++ '"' :: y)
  | x :: p :: rest =>
      let r := collectQuoteParts rest
      (p :: r.1, x ++ r.2)

/-- Model of `QueryParser.parse`: quoted spans are tokenized with stopwords kept
(`tokenize_phrase`); the remaining free text with the regular query
tokenizer.  A non-empty quoted string is appended even if its token list
is empty. -/
def parse_query (q : String) : List String × List (List String) :=
  if q = "" then ([], [])
  else
    let parts := q.toList.splitOn '"'
    let pr := collectQuoteParts parts
    let phrases := pr.1.filterMap fun p =>
      if p = [] then none else some (tokenize false (String.mk p))
    let terms := tokenize true (String.mk pr.2)
    (terms, phrases)

/- ------------------------------------------------------------------ -/
/- src/search/scorer.py: TfIdfScorer.                                 -/
/-                                                                    -/
/- Float arithmetic that only adds, multiplies and divides is modelled -/
/- in ℚ; `math.log` forces ℝ.  A Python `ZeroDivisionError` (float     -/
/- division by zero raises) is modelled as `none`.                     -/
/- ------------------------------------------------------------------ -/

/-- The value returned by `get_term_info` (the store mutation of the read
is the benign read-your-writes flush and is dropped at query time, where
the sealed index has an empty buffer). -/
def termInfoVal (s : IndexStorage) (t : String) : DocMap :=
  (get_term_info t s).1

/-- The value returned by `get_doc_frequency`. -/
def docFrequencyVal (s : IndexStorage) (t : String) : Nat :=
  (get_doc_frequency t s).1

/-- Average document length `avg_doc_length`, computed once at Scorer construction: the mean of
`doc_lengths.values()`, or 0 on an empty corpus. -/
def avg_doc_length (s : IndexStorage) : Rat :=
  if s.doc_lengths = [] then 0
  else (s.doc_lengths.map (fun e => (e.2 : Rat))).sum / (s.doc_lengths.length : Rat)

/-- Model of `TfIdfScorer._calc_idf`: 0 for an unindexed term, else the smoothed
BM25 idf.  (The log argument is always positive, so `math.log` never
raises here.) -/
noncomputable def calc_idf (s : IndexStorage) (t : String) : Real :=
  if docFrequencyVal s t = 0 then 0
  else Real.log (((s.total_docs : Real) - (docFrequencyVal s t : Real) + 1/2)
    / ((docFrequencyVal s t : Real) + 1/2) + 1)

/-- Model of `TfIdfScorer._calc_tf_score`.  Returns `some 0` when the doc has no
posting for the term; otherwise evaluates the BM25 tf part.  When
`avg_doc_length = 0` Python raises `ZeroDivisionError` inside
`b * doc_len / self.avg_doc_length` before the `denominator != 0` guard
can help — modelled as `none`. -/
def calc_tf_score (k1 b : Rat) (s : IndexStorage) (t d : String) : Option Rat :=
  match alGet d (termInfoVal s t) with
  | none => some 0
  | some posting =>
      let tf : Rat := posting.tf
      if avg_doc_length s = 0 then none
      else
        let doc_len : Rat :=
          ((alGet d s.doc_lengths).map (fun n => (n : Rat))).getD (avg_doc_length s)
        let denominator := tf + k1 * (1 - b + b * doc_len / avg_doc_length s)
        some (if denominator ≠ 0 then tf * (k1 + 1) / denominator else 0)

/-- Model of `TfIdfScorer.score_term = tf_score * idf`. -/
noncomputable def score_term (k1 b : Rat) (s : IndexStorage) (t d : String) :
    Option Real :=
  (calc_tf_score k1 b s t d).map (fun q => (q : Real) * calc_idf s t)

/-- The offset position list the phrase probe builds
(`scorer.py` lines 127-134): for `i in range(1, len(phrase))` it collects
`[p + i for p in index[phrase[i]][doc]['positions']]` — note that the
FIRST term's own positions are never added. -/
def phraseProbePositions (idx : InvIndex) (phrase : List String) (d : String) :
    List Int :=
  (List.range' 1 (phrase.length - 1)).flatMap fun i =>
    match alGet (phrase.getD i "") idx with
    | some m =>
        match alGet d m with
        | some posting => posting.positions.map (fun p => p + (i : Int))
        | none => []
    | none => []

/-- The exact-match probe of `score_document`: guarded by the first term
being present in the document, then `is_exact_match` over the collected
offsets.  (It reads `self.storage.index` directly.) -/
def phraseProbe (idx : InvIndex) (phrase : List String) (d : String) : Bool :=
  match phrase with
  | [] => false
  | first :: _ =>
      match alGet first idx with
      | some m =>
          if (alGet d m).isSome then
            is_exact_match (phraseProbePositions idx phrase d) phrase.length
          else false
      | none => false

/-- Sum of per-term scores (the `for term in …: score += score_term` loop;
an exception aborts the whole call, hence the monadic fold). -/
noncomputable def sumTermScores (k1 b : Rat) (s : IndexStorage) (d : String)
    (ts : List String) : Option Real :=
  ts.foldlM (fun acc t => (score_term k1 b s t d).map (acc + ·)) (0 : Real)

/-- One phrase's contribution inside `score_document`: skip empty phrases,
else add the per-term sum, doubled by `phrase_boost` when the probe fires. -/
noncomputable def phraseContribution (k1 b boost : Rat) (s : IndexStorage)
    (d : String) (acc : Real) (phrase : List String) : Option Real :=
  if phrase = [] then some acc
  else (sumTermScores k1 b s d phrase).map fun ps =>
    acc + if phraseProbe s.index phrase d then (boost : Real) * ps else ps

/-- Model of `TfIdfScorer.score_document`. -/
noncomputable def score_document (k1 b boost : Rat) (s : IndexStorage)
    (terms : List String) (phrases : List (List String)) (d : String) :
    Option Real :=
  (sumTermScores k1 b s d terms).bind fun base =>
    phrases.foldlM (phraseContribution k1 b boost s d) base

/-- Modelled from the specification (§4.5 step 2), for comparison with the
code's probe: an exact occurrence exists iff there are positions
`p_i ∈ pos_i` with `p_i = p_0 + i` for all `i` (`pos_i` empty when `t_i`
is absent from the document). -/
def specExactOccurrence (idx : InvIndex) (phrase : List String) (d : String) :
    Bool :=
  match phrase with
  | [] => false
  | t0 :: rest =>
      (match alGet t0 idx with
        | some m => match alGet d m with
          | some p => p.positions
          | none => []
        | none => ([] : List Int)).any fun p0 =>
        (List.range rest.length).all fun i =>
          (match alGet (rest.getD i "") idx with
            | some m => match alGet d m with
              | some p => p.positions
              | none => []
            | none => ([] : List Int)).contains (p0 + (i : Int) + 1)

/- ------------------------------------------------------------------ -/
/- Claim C8: empty corpus and the zero average length.                -/
/- ------------------------------------------------------------------ -/

/-- Claim C8, amended: with `doc_lengths` empty, `avg_len` is 0, and
`_calc_tf_score` returns 0 for every `(term, doc_id)` WITHOUT a posting
(in particular always on a fully empty store, where every term
contribution is 0); when a posting does exist the division by
`avg_len = 0` raises instead (see the counterexample). -/
theorem c8_empty_doc_lengths (s : IndexStorage) (t d : String) (k1 b : Rat)
    (hdl : s.doc_lengths = []) :
    avg_doc_length s = 0
  ∧ (alGet d (termInfoVal s t) = none → calc_tf_score k1 b s t d = some 0)
  ∧ (s.index = [] → s.write_buffer = [] → score_term k1 b s t d = some 0) := by
  refine ⟨by unfold avg_doc_length; rw [if_pos hdl], fun h => ?_, fun hi hb => ?_⟩
  · unfold calc_tf_score
    rw [h]
  · have hti : termInfoVal s t = [] := by
      unfold termInfoVal get_term_info bufHasTerm
      rw [hb]
      simp [alGet, hi]
    unfold score_term calc_tf_score
    rw [hti]
    simp [alGet]

/-- Witness for C8 on the fresh empty store. -/
theorem c8_empty_doc_lengths_witness :
    avg_doc_length emptyStorage = 0
  ∧ score_term (3/2) (3/4) emptyStorage "x" "y" = some 0 := by
  have h := c8_empty_doc_lengths emptyStorage "x" "y" (3/2) (3/4) rfl
  exact ⟨h.1, h.2.2 rfl rfl⟩

/-- A store with a posting but no recorded document lengths. -/
def c8State : IndexStorage :=
  { index := [("t", [("d", ⟨1, [0]⟩)])], doc_lengths := [], total_docs := 0
    vocabulary := ["t"], write_buffer := [], buffer_size := 0 }

/-- Counterexample to claim C8 as stated: `doc_lengths` is empty and
`avg_len = 0`, yet `_calc_tf_score("t", "d")` does NOT return 0 — it hits
the division `b * doc_len / avg_len` with `avg_len = 0`, a
`ZeroDivisionError` (modelled `none`). -/
theorem c8_counterexample :
    c8State.doc_lengths = [] ∧ avg_doc_length c8State = 0
  ∧ calc_tf_score (3/2) (3/4) c8State "t" "d" = none := by
  refine ⟨rfl, by decide, by decide⟩

/- ------------------------------------------------------------------ -/
/- Claim C1: the phrase probe omits the first term's positions.       -/
/- ------------------------------------------------------------------ -/

/-- The index of spec scenario 2: document `d = "a b a b a"`, postings
`a → d:{tf:3, pos:[0,2,4]}`, `b → d:{tf:2, pos:[1,3]}`. -/
def c1State : IndexStorage :=
  { index := [("a", [("d", ⟨3, [0, 2, 4]⟩)]), ("b", [("d", ⟨2, [1, 3]⟩)])]
    doc_lengths := [("d", 5)], total_docs := 1, vocabulary := ["a", "b"]
    write_buffer := [], buffer_size := 0 }

/-- Claim C1 (code bug): on the spec's own example an exact occurrence of
the phrase `[a, b]` exists (`p_0 = 0, p_1 = 1`), but the code's probe
collects only the offset positions `[2, 4]` of the SECOND term, finds no
length-2 run in them, and reports no match — so the boost factor is never
applied (the score is the same whether `phrase_boost` is 2 or 1). -/
theorem c1_probe_code_bug :
    specExactOccurrence c1State.index ["a", "b"] "d" = true
  ∧ phraseProbe c1State.index ["a", "b"] "d" = false
  ∧ phraseProbePositions c1State.index ["a", "b"] "d" = [2, 4]
  ∧ score_document (3/2) (3/4) 2 c1State [] [["a", "b"]] "d"
      = score_document (3/2) (3/4) 1 c1State [] [["a", "b"]] "d" := by
  refine ⟨by decide, by decide, by decide, ?_⟩
  have hprobe : phraseProbe c1State.index ["a", "b"] "d" = false := by decide
  simp [score_document, phraseContribution, hprobe]

/- ------------------------------------------------------------------ -/
/- Claim C3: the "new york" scenario end to end.                      -/
/- ------------------------------------------------------------------ -/

/-- Model of `Indexer.index_document`: per-term position lists by one scan
(`term_positions[token].append(position)` over `enumerate(tokens)`). -/
def termPositions (tokens : List String) : List (String × List Int) :=
  tokens.enum.foldl
    (fun acc pe => alSet pe.2 (((alGet pe.2 acc).getD []) ++ [(pe.1 : Int)]) acc)
    []

/-- The coordinator's per-document work in `Indexer.build_index`:
`update_doc_length(doc, len(tokens))` then `add_term` per position (the
wall-clock oracle is `false`: tiny builds never hit the flush interval). -/
def index_document_into (doc text : String) (s : IndexStorage) : IndexStorage :=
  let tokens := tokenize true text
  let s1 := update_doc_length doc tokens.length s
  (termPositions tokens).foldl
    (fun acc e => e.2.foldl (fun a p => add_term false e.1 doc p a) acc) s1

/-- Build over a document list, set `total_docs`, and seal with the final
forced flush of `save_index` (`if buffer_size > 0: flush`). -/
def build_and_seal (docs : List (String × String)) : IndexStorage :=
  let s1 := docs.foldl (fun acc e => index_document_into e.1 e.2 acc) emptyStorage
  let s2 := { s1 with total_docs := docs.length }
  if 0 < s2.buffer_size then flush_buffer s2 else s2

/-- The sealed index of spec scenario 1: `d1 = "new york city"`,
`d2 = "new jersey"`. -/
def c3State : IndexStorage :=
  { index := [("new", [("d1", ⟨1, [0]⟩), ("d2", ⟨1, [0]⟩)]),
              ("york", [("d1", ⟨1, [1]⟩)]),
              ("city", [("d1", ⟨1, [2]⟩)]),
              ("jersey", [("d2", ⟨1, [1]⟩)])]
    doc_lengths := [("d1", 3), ("d2", 2)], total_docs := 2
    vocabulary := ["new", "york", "city", "jersey"]
    write_buffer := [], buffer_size := 0 }

theorem c3_build_eq :
    build_and_seal [("d1", "new york city"), ("d2", "new jersey")] = c3State := by
  decide

theorem c3_avg : avg_doc_length c3State = 5/2 := by
  rw [avg_doc_length, if_neg (by decide)]
  norm_num [c3State]

theorem c3_tf_new_d2 :
    calc_tf_score (3/2) (3/4) c3State "new" "d2" = some (100/91) := by
  have hti : termInfoVal c3State "new" = [("d1", ⟨1, [0]⟩), ("d2", ⟨1, [0]⟩)] := by
    decide
  have hdl2 : alGet "d2" c3State.doc_lengths = some 2 := by decide
  unfold calc_tf_score
  rw [hti]
  simp +decide only [alGet, hdl2]
  rw [c3_avg]
  norm_num

theorem c3_tf_york_d2 :
    calc_tf_score (3/2) (3/4) c3State "york" "d2" = some 0 := by
  decide

theorem c3_tf_new_d1 :
    calc_tf_score (3/2) (3/4) c3State "new" "d1" = some (100/109) := by
  have hti : termInfoVal c3State "new" = [("d1", ⟨1, [0]⟩), ("d2", ⟨1, [0]⟩)] := by
    decide
  have hdl1 : alGet "d1" c3State.doc_lengths = some 3 := by decide
  unfold calc_tf_score
  rw [hti]
  simp +decide only [alGet, hdl1]
  rw [c3_avg]
  norm_num

theorem c3_tf_york_d1 :
    calc_tf_score (3/2) (3/4) c3State "york" "d1" = some (100/109) := by
  have hti : termInfoVal c3State "york" = [("d1", ⟨1, [1]⟩)] := by decide
  have hdl1 : alGet "d1" c3State.doc_lengths = some 3 := by decide
  unfold calc_tf_score
  rw [hti]
  simp +decide only [alGet, hdl1]
  rw [c3_avg]
  norm_num

theorem c3_idf_new_pos : 0 < calc_idf c3State "new" := by
  have hdf : docFrequencyVal c3State "new" = 2 := by decide
  have htd : c3State.total_docs = 2 := rfl
  unfold calc_idf
  rw [hdf, htd, if_neg (by norm_num)]
  apply Real.log_pos
  push_cast
  norm_num

theorem c3_idf_york_pos : 0 < calc_idf c3State "york" := by
  have hdf : docFrequencyVal c3State "york" = 1 := by decide
  have htd : c3State.total_docs = 2 := rfl
  unfold calc_idf
  rw [hdf, htd, if_neg (by norm_num)]
  apply Real.log_pos
  push_cast
  norm_num

theorem c3_sum_d2 : sumTermScores (3/2) (3/4) c3State "d2" ["new", "york"]
    = some ((0 + ((100/91 : Rat) : Real) * calc_idf c3State "new")
        + ((0 : Rat) : Real) * calc_idf c3State "york") := by
  unfold sumTermScores
  simp only [List.foldlM_cons, List.foldlM_nil]
  unfold score_term
  rw [c3_tf_new_d2, c3_tf_york_d2]
  rfl

theorem c3_sum_d1 : sumTermScores (3/2) (3/4) c3State "d1" ["new", "york"]
    = some ((0 + ((100/109 : Rat) : Real) * calc_idf c3State "new")
        + ((100/109 : Rat) : Real) * calc_idf c3State "york") := by
  unfold sumTermScores
  simp only [List.foldlM_cons, List.foldlM_nil]
  unfold score_term
  rw [c3_tf_new_d1, c3_tf_york_d1]
  rfl

theorem c3_probe_d1 : phraseProbe c3State.index ["new", "york"] "d1" = false := by
  decide

theorem c3_probe_d2 : phraseProbe c3State.index ["new", "york"] "d2" = false := by
  decide

theorem c3_score_d2 : score_document (3/2) (3/4) 2 c3State [] [["new", "york"]] "d2"
    = some (0 + ((0 + ((100/91 : Rat) : Real) * calc_idf c3State "new")
        + ((0 : Rat) : Real) * calc_idf c3State "york")) := by
  unfold score_document
  simp only [List.foldlM_cons, List.foldlM_nil]
  unfold sumTermScores
  simp only [List.foldlM_nil]
  unfold phraseContribution
  simp only [Option.pure_def, Option.some_bind, bind_pure]
  rw [if_neg (by decide : ¬ ((["new", "york"] : List String) = []))]
  rw [c3_sum_d2, c3_probe_d2]
  simp

theorem c3_score_d1 : score_document (3/2) (3/4) 2 c3State [] [["new", "york"]] "d1"
    = some (0 + ((0 + ((100/109 : Rat) : Real) * calc_idf c3State "new")
        + ((100/109 : Rat) : Real) * calc_idf c3State "york")) := by
  unfold score_document
  simp only [List.foldlM_cons, List.foldlM_nil]
  unfold sumTermScores
  simp only [List.foldlM_nil]
  unfold phraseContribution
  simp only [Option.pure_def, Option.some_bind, bind_pure]
  rw [if_neg (by decide : ¬ ((["new", "york"] : List String) = []))]
  rw [c3_sum_d1, c3_probe_d1]
  simp

theorem c3_pos_d2 : (0 : Real)
    < 0 + ((0 + ((100/91 : Rat) : Real) * calc_idf c3State "new")
        + ((0 : Rat) : Real) * calc_idf c3State "york") := by
  have h1 := c3_idf_new_pos
  have h2 : (0 : Real) < ((100/91 : Rat) : Real) := by norm_num
  simpa using mul_pos h2 h1

theorem c3_pos_d1 : (0 : Real)
    < 0 + ((0 + ((100/109 : Rat) : Real) * calc_idf c3State "new")
        + ((100/109 : Rat) : Real) * calc_idf c3State "york") := by
  have h1 := c3_idf_new_pos
  have h2 := c3_idf_york_pos
  have hc : (0 : Real) < ((100/109 : Rat) : Real) := by norm_num
  have hsum := add_pos (mul_pos hc h1) (mul_pos hc h2)
  simpa [add_assoc] using hsum

/-- Claim C3, amended: the query parses to the single phrase
`["new", "york"]` with no free terms, indexing the two documents with the
default pipeline yields `c3State`, and BOTH documents are assigned a score
greater than 0 (each contains "new", and the scorer never filters a phrase
to its exact matches) — not only `d1`; moreover the phrase boost is NOT
applied to `d1`, because the code's probe omits the first term's positions
(claim C1's bug). -/
theorem c3_phrase_query_behaviour :
    parse_query "\"new york\"" = ([], [["new", "york"]])
  ∧ build_and_seal [("d1", "new york city"), ("d2", "new jersey")] = c3State
  ∧ (∃ r1 : Real, score_document (3/2) (3/4) 2 c3State [] [["new", "york"]] "d1"
      = some r1 ∧ 0 < r1)
  ∧ (∃ r2 : Real, score_document (3/2) (3/4) 2 c3State [] [["new", "york"]] "d2"
      = some r2 ∧ 0 < r2)
  ∧ phraseProbe c3State.index ["new", "york"] "d1" = false :=
  ⟨by decide, c3_build_eq, ⟨_, c3_score_d1, c3_pos_d1⟩,
    ⟨_, c3_score_d2, c3_pos_d2⟩, c3_probe_d1⟩

/-- Counterexample to claim C3 as stated: the phrase query gives `d2` a
score greater than 0 as well (so the score is NOT positive "only for d1"),
and the probe reports no exact match for `d1`, so the boost is not
applied. -/
theorem c3_counterexample :
    (∃ r2 : Real, score_document (3/2) (3/4) 2 c3State [] [["new", "york"]] "d2"
      = some r2 ∧ 0 < r2)
  ∧ phraseProbe c3State.index ["new", "york"] "d1" = false :=
  ⟨⟨_, c3_score_d2, c3_pos_d2⟩, c3_probe_d1⟩

/- ------------------------------------------------------------------ -/
/- src/search/retriever.py, Retriever.search lines 80-95: score,      -/
/- filter, stable sort by score descending, truncate.                 -/
/- ------------------------------------------------------------------ -/

instance decRelScoreDesc {α : Type} [LinearOrder α] :
    DecidableRel (fun x y : String × α => y.2 ≤ x.2) :=
  fun x y => inferInstanceAs (Decidable (y.2 ≤ x.2))

instance totalScoreDesc {α : Type} [LinearOrder α] :
    IsTotal (String × α) (fun x y => y.2 ≤ x.2) :=
  ⟨fun a b => le_total b.2 a.2⟩

instance transScoreDesc {α : Type} [LinearOrder α] :
    IsTrans (String × α) (fun x y => y.2 ≤ x.2) :=
  ⟨fun _ _ _ h1 h2 => le_trans h2 h1⟩

/-- The post-scoring stage of `Retriever.search`: keep candidates with
score > 0 (in candidate-enumeration order), sort stably by score
descending (Python's `sort(key=…, reverse=True)` is stable; any stable
sort returns the same list, here insertion sort), and truncate to
`top_n`.  The score function and the enumeration order of the candidate
set (a Python `set`, whose iteration order is unspecified) are
parameters. -/
def searchRank {α : Type} [LinearOrder α] [Zero α] (score : String → α)
    (candidates : List String) (top_n : Nat) : List (String × α) :=
  let doc_scores := (candidates.map (fun d => (d, score d))).filter
    (fun x => decide (0 < x.2))
  let sorted := doc_scores.insertionSort (fun x y => y.2 ≤ x.2)
  sorted.take top_n

/-- Claim C5, amended: `search` keeps exactly the candidates with score
greater than 0, returns them sorted by score descending and truncated to
the first `top_n`; ties keep the candidate-enumeration order (the sort is
stable), which is the iteration order of a Python set — NOT a lexicographic
doc_id order, and not a function of the index state alone. -/
theorem c5_rank_properties {α : Type} [LinearOrder α] [Zero α]
    (score : String → α) (candidates : List String) (top_n : Nat) :
    List.Sorted (fun x y : String × α => y.2 ≤ x.2)
        (searchRank score candidates top_n)
  ∧ (searchRank score candidates top_n).length
      = min top_n ((candidates.map (fun d => (d, score d))).filter
          (fun x => decide (0 < x.2))).length
  ∧ ∀ x ∈ searchRank score candidates top_n,
      x.1 ∈ candidates ∧ x.2 = score x.1 ∧ 0 < x.2 := by
  refine ⟨?_, ?_, ?_⟩
  · exact List.Pairwise.sublist (List.take_sublist _ _)
      (List.sorted_insertionSort _ _)
  · unfold searchRank
    rw [List.length_take, (List.perm_insertionSort _ _).length_eq]
  · intro x hx
    have hx2 : x ∈ ((candidates.map (fun d => (d, score d))).filter
        (fun x => decide (0 < x.2))).insertionSort (fun x y => y.2 ≤ x.2) :=
      List.mem_of_mem_take hx
    rw [(List.perm_insertionSort _ _).mem_iff, List.mem_filter] at hx2
    obtain ⟨hmem, hpos⟩ := hx2
    rw [List.mem_map] at hmem
    obtain ⟨d, hd, hdx⟩ := hmem
    subst hdx
    exact ⟨hd, rfl, of_decide_eq_true hpos⟩

/-- Counterexample to claim C5 as stated: two candidates with equal
positive scores come out in candidate-enumeration order, not in
lexicographic doc_id order, so two enumerations of the same candidate set
give different orderings. -/
theorem c5_counterexample :
    searchRank (fun _ => (1 : Rat)) ["db", "da"] 10 = [("db", 1), ("da", 1)]
  ∧ searchRank (fun _ => (1 : Rat)) ["da", "db"] 10 = [("da", 1), ("db", 1)]
  ∧ searchRank (fun _ => (1 : Rat)) ["db", "da"] 10
      ≠ searchRank (fun _ => (1 : Rat)) ["da", "db"] 10 := by
  refine ⟨by decide, by decide, by decide⟩
